import Mathlib

/-!
Verification of the hand-rolled growable array (`Vec<T>`) of
`src/rustonomicon/vec.rs` (duplicated verbatim in `src/unsafe/vec.rs`),
together with its consuming iterator `VecIntoIter<T>`.

Shallow embedding conventions:
* Raw memory is a typed buffer `Nat → Option α`: `none` models an
  uninitialized (or unallocated) slot, `some x` a live value `x`.
  Slots at or beyond the allocated capacity are unallocated and held at
  `none`.
* `ptr::write` stores `some x` into a slot; `ptr::read`, which the source
  always uses as a move, yields the slot's content and leaves the source
  slot logically uninitialized (`none`).
* `usize` arithmetic that cannot overflow in the source is modelled on
  `Nat`; the one place the source can underflow a `usize`
  (`self.len -= 1` and the `ptr::copy` count inside `remove`) is detected
  explicitly and reported as `RemoveResult.undefined`.
* An `assert!` failure (index out of bounds) is a panic: `insert` returns
  `none`, `remove` returns `RemoveResult.outOfBounds`; in both cases the
  assert fires before any mutation.
* Allocation never fails in the model (the source aborts the process on
  allocation failure, so no post-state exists on that path).
-/

namespace Rustonomicon

/-- A typed view of raw memory: slot `i` holds `some x` when the slot is
initialized with value `x`, and `none` when it is uninitialized or
unallocated. -/
def Buffer (α : Type) : Type := Nat → Option α

/-- `Vec<T>` from `rustonomicon/vec.rs`: a buffer pointer, a capacity and a
length.  The `ptr` field of the source is represented by the buffer
contents themselves; `NonNull::dangling()` (capacity 0) is the everywhere
unallocated buffer. -/
structure Vec (α : Type) where
  buf : Buffer α
  cap : Nat
  len : Nat

/-- `VecIntoIter<T>`: owns the buffer transferred out of a `Vec`, with the
`start` and `end` pointers represented as slot indices (`stop` stands for
the reserved word `end`). -/
structure VecIntoIter (α : Type) where
  buf : Buffer α
  cap : Nat
  start : Nat
  stop : Nat

/-- `Vec::new()`: capacity 0, length 0, no allocation (the ZST assert of
the source is outside the model: `α` is an arbitrary inhabited-or-not
type of nonzero notional size). -/
def Vec.new : Vec α :=
  { buf := fun _ => none, cap := 0, len := 0 }

/-- `Vec::grow()`: first allocation has capacity 1; afterwards capacity
doubles.  `alloc` returns fresh uninitialized memory; `realloc` preserves
the first `cap` slots and the region beyond the new capacity stays
unallocated. -/
def Vec.grow (v : Vec α) : Vec α :=
  if v.cap = 0 then
    { v with cap := 1, buf := fun _ => none }
  else
    { v with cap := 2 * v.cap, buf := fun i => if i < v.cap then v.buf i else none }

/-- `Vec::push`: grow when full, `ptr::write` the element into slot `len`,
increment `len`. -/
def Vec.push (v : Vec α) (elem : α) : Vec α :=
  let v₁ := if v.len = v.cap then v.grow else v
  { v₁ with
      buf := fun i => if i = v₁.len then some elem else v₁.buf i,
      len := v₁.len + 1 }

/-- `Vec::pop`: `None` when empty, otherwise decrement `len` and move the
value out of slot `len` (the vacated slot becomes uninitialized). -/
def Vec.pop (v : Vec α) : Option α × Vec α :=
  if v.len = 0 then (none, v)
  else
    let len' := v.len - 1
    (v.buf len',
     { v with len := len', buf := fun i => if i = len' then none else v.buf i })

/-- `Vec::insert`: `assert!(index <= len)` (`none` = panic), grow when
full, `ptr::copy` slots `[index, len)` one to the right, `ptr::write` the
element at `index`, increment `len`. -/
def Vec.insert (v : Vec α) (index : Nat) (elem : α) : Option (Vec α) :=
  if index ≤ v.len then
    let v₁ := if v.cap = v.len then v.grow else v
    let shifted : Buffer α := fun j =>
      if index + 1 ≤ j ∧ j < index + 1 + (v₁.len - index) then v₁.buf (j - 1)
      else v₁.buf j
    some { v₁ with
             buf := fun j => if j = index then some elem else shifted j,
             len := v₁.len + 1 }
  else none

/-- The post-state of `insert`, taking the panic branch (which mutates
nothing) to leave the container as it was. -/
def Vec.insertRes (v : Vec α) (index : Nat) (elem : α) : Vec α :=
  (v.insert index elem).getD v

/-- Outcome of `Vec::remove`: the assert can panic, the unsafe body can
hit undefined behavior (a `usize` underflow or a read of an
uninitialized slot), or it returns the value and the new state. -/
inductive RemoveResult (α : Type) where
  | outOfBounds : RemoveResult α
  | undefined : RemoveResult α
  | ok (val : α) (v' : Vec α) : RemoveResult α

/-- `Vec::remove`: `assert!(index <= len)`, then `self.len -= 1` (a
`usize` underflow when `len = 0`), then `ptr::read` at `index` (undefined
when the slot is uninitialized or unallocated), then `ptr::copy` slots
`[index+1, len)` one to the left with count `self.len - index` (a `usize`
underflow when `index` exceeds the decremented length).  After the shift
the old last slot is moved-from, hence uninitialized. -/
def Vec.remove (v : Vec α) (index : Nat) : RemoveResult α :=
  if index ≤ v.len then
    if v.len = 0 then .undefined
    else
      let len' := v.len - 1
      match v.buf index with
      | none => .undefined
      | some val =>
        if len' < index then .undefined
        else
          let shifted : Buffer α := fun j =>
            if index ≤ j ∧ j < index + (len' - index) then v.buf (j + 1)
            else v.buf j
          .ok val
            { v with
                len := len',
                buf := fun j => if j = len' then none else shifted j }
  else .outOfBounds

/-- `IntoIterator::into_iter`: buffer ownership moves into the iterator;
`start` is the base of the buffer and `end` is `base + len`, except that a
capacity-0 vector sets `end = start`. -/
def Vec.intoIter (v : Vec α) : VecIntoIter α :=
  { buf := v.buf, cap := v.cap, start := 0,
    stop := if v.cap = 0 then 0 else v.len }

/-- `VecIntoIter::next`: `None` when `start == end`, otherwise move the
value out of slot `start` and advance `start`. -/
def VecIntoIter.next (it : VecIntoIter α) : Option α × VecIntoIter α :=
  if it.start = it.stop then (none, it)
  else
    (it.buf it.start,
     { it with
         start := it.start + 1,
         buf := fun j => if j = it.start then none else it.buf j })

/-- `DoubleEndedIterator::next_back`: `None` when `start == end`,
otherwise decrement `end` and move the value out of the new `end` slot. -/
def VecIntoIter.nextBack (it : VecIntoIter α) : Option α × VecIntoIter α :=
  if it.start = it.stop then (none, it)
  else
    let e := it.stop - 1
    (it.buf e,
     { it with stop := e, buf := fun j => if j = e then none else it.buf j })

/-- `Iterator::size_hint`: the byte distance `end - start` divided by the
element size, i.e. the index distance, as both the lower and the exact
upper bound. -/
def VecIntoIter.sizeHint (it : VecIntoIter α) : Nat × Option Nat :=
  (it.stop - it.start, some (it.stop - it.start))

/-- The front-drain loop `for _ in &mut *self {}` (also full draining via
`next`), with explicit fuel; the source loop stops exactly when
`start == end`.  Returns the sequence of slot contents moved out and the
final iterator state. -/
def VecIntoIter.drainFuel : Nat → VecIntoIter α → List (Option α) × VecIntoIter α
  | 0, it => ([], it)
  | Nat.succ n, it =>
    if it.start = it.stop then ([], it)
    else
      let p := it.next
      let rest := drainFuel n p.2
      (p.1 :: rest.1, rest.2)

/-- Fully drain an iterator from the front; `stop - start` successful
calls exhaust it. -/
def VecIntoIter.drain (it : VecIntoIter α) : List (Option α) × VecIntoIter α :=
  VecIntoIter.drainFuel (it.stop - it.start) it

/-- An interleaved drain: `true` picks `next`, `false` picks `next_back`;
a call on an exhausted iterator yields nothing and changes nothing. -/
def VecIntoIter.drainWith : List Bool → VecIntoIter α → List (Option α) × VecIntoIter α
  | [], it => ([], it)
  | c :: cs, it =>
    if it.start = it.stop then drainWith cs it
    else
      let p := if c then it.next else it.nextBack
      let rest := drainWith cs p.2
      (p.1 :: rest.1, rest.2)

/-- The element-teardown loop of `Drop for Vec`,
`while let Some(_) = self.pop() {}`, with explicit fuel (`len` pops
exhaust the vector): the sequence of slot contents handed to the
element destructor. -/
def Vec.dropLoopFuel : Nat → Vec α → List (Option α)
  | 0, _ => []
  | Nat.succ n, v =>
    if v.len = 0 then []
    else (v.pop).1 :: dropLoopFuel n (v.pop).2

/-- `Drop for Vec`: when `cap != 0`, pop every element (tearing each one
down) and then deallocate; when `cap == 0` do nothing.  This is the
sequence of elements torn down, in teardown order. -/
def Vec.dropElems (v : Vec α) : List (Option α) :=
  if v.cap = 0 then [] else Vec.dropLoopFuel v.len v

/-- `Drop for Vec` releases the buffer exactly when `cap != 0`. -/
def Vec.dropFreesBuffer (v : Vec α) : Bool :=
  v.cap != 0

/-- `Drop for VecIntoIter`: when `cap != 0`, drain the remaining elements
from the front (`for _ in &mut *self {}`, tearing each one down) and then
deallocate.  This is the sequence of elements torn down. -/
def VecIntoIter.dropElems (it : VecIntoIter α) : List (Option α) :=
  if it.cap = 0 then [] else (it.drain).1

/-- The live region `[0, len)` of a vector read by direct front-to-back
indexing. -/
def Vec.liveList (v : Vec α) : List (Option α) :=
  (List.range v.len).map v.buf

/-- The not-yet-yielded region `[start, stop)` of an iterator, front to
back. -/
def VecIntoIter.remainingList (it : VecIntoIter α) : List (Option α) :=
  (List.range (it.stop - it.start)).map (fun k => it.buf (it.start + k))

/-- Well-formedness of a vector state (the invariants of §3 of the
documentation): the live region fits the capacity, live slots are
initialized, and everything at or beyond `len` is uninitialized or
unallocated. -/
def Vec.WF (v : Vec α) : Prop :=
  v.len ≤ v.cap ∧ (∀ i, i < v.len → (v.buf i).isSome) ∧ (∀ i, v.len ≤ i → v.buf i = none)

/-- Well-formedness of an iterator state: `start <= end`, and a
capacity-0 iterator was created already exhausted. -/
def VecIntoIter.WF (it : VecIntoIter α) : Prop :=
  it.start ≤ it.stop ∧ (it.cap = 0 → it.start = it.stop)

/-- The public mutating operations, for properties quantified over
arbitrary operation sequences.  A panicking or undefined call produces no
successor state; the fold keeps the previous state in that case. -/
inductive Op (α : Type) where
  | push (x : α) : Op α
  | pop : Op α
  | insert (i : Nat) (x : α) : Op α
  | remove (i : Nat) : Op α

/-- Apply one operation to a vector state. -/
def Op.apply : Op α → Vec α → Vec α
  | .push x, v => v.push x
  | .pop, v => (v.pop).2
  | .insert i x, v => v.insertRes i x
  | .remove i, v =>
    match v.remove i with
    | .ok _ w => w
    | _ => v

/-- Apply a sequence of operations left to right. -/
def Op.applyAll (ops : List (Op α)) (v : Vec α) : Vec α :=
  ops.foldl (fun v op => op.apply v) v

/-- Push a whole list, left to right. -/
def Vec.pushAll (v : Vec α) (xs : List α) : Vec α :=
  xs.foldl Vec.push v

/-- Pop `n` times, collecting the results in call order. -/
def Vec.popN : Nat → Vec α → List (Option α) × Vec α
  | 0, v => ([], v)
  | Nat.succ n, v =>
    let p := v.pop
    let rest := Vec.popN n p.2
    (p.1 :: rest.1, rest.2)

/-! ### Basic facts about `grow`, `push` and `pop` -/

theorem Vec.grow_len (v : Vec α) : (v.grow).len = v.len := by
  rw [Vec.grow]; split <;> rfl

theorem Vec.grow_buf_lt (v : Vec α) (i : Nat) (h : i < v.cap) :
    (v.grow).buf i = v.buf i := by
  rw [Vec.grow]; split
  · omega
  · simp only [if_pos h]

theorem Vec.grow_cap (v : Vec α) :
    (v.grow).cap = if v.cap = 0 then 1 else 2 * v.cap := by
  rw [Vec.grow]; split <;> simp_all

theorem Vec.cap_le_grow_cap (v : Vec α) : v.cap ≤ (v.grow).cap := by
  rw [Vec.grow_cap]; split <;> omega

theorem Vec.grow_WF (v : Vec α) (h : v.WF) : (v.grow).WF := by
  obtain ⟨h1, h2, h3⟩ := h
  refine ⟨?_, ?_, ?_⟩
  · rw [Vec.grow_len, Vec.grow_cap]; split <;> omega
  · intro i hi
    rw [Vec.grow_len] at hi
    rw [Vec.grow_buf_lt v i (by omega)]
    exact h2 i hi
  · intro i hi
    rw [Vec.grow_len] at hi
    rw [Vec.grow]; split
    · rfl
    · simp only []
      split
      · exact h3 i hi
      · rfl

theorem Vec.push_len (v : Vec α) (x : α) : (v.push x).len = v.len + 1 := by
  rw [Vec.push]
  split <;> simp [Vec.grow_len]

theorem Vec.push_cap (v : Vec α) (x : α) :
    (v.push x).cap = if v.len = v.cap then (if v.cap = 0 then 1 else 2 * v.cap) else v.cap := by
  rw [Vec.push]
  split <;> simp_all [Vec.grow_cap]

theorem Vec.cap_le_push_cap (v : Vec α) (x : α) : v.cap ≤ (v.push x).cap := by
  rw [Vec.push_cap]; split
  · split <;> omega
  · omega

theorem Vec.push_buf_lt (v : Vec α) (x : α) (i : Nat) (h : i < v.len) :
    (v.push x).buf i = v.buf i := by
  rw [Vec.push]
  split <;> rename_i hlc
  · simp only [Vec.grow_len]
    rw [if_neg (by omega), Vec.grow_buf_lt v i (by omega)]
  · simp only []
    rw [if_neg (by omega)]

theorem Vec.push_buf_at (v : Vec α) (x : α) : (v.push x).buf v.len = some x := by
  rw [Vec.push]
  split <;> simp [Vec.grow_len]

theorem Vec.push_buf_ge (v : Vec α) (x : α) (i : Nat) (h : v.WF) (hi : v.len + 1 ≤ i) :
    (v.push x).buf i = none := by
  obtain ⟨h1, h2, h3⟩ := h
  rw [Vec.push]
  split <;> rename_i hlc
  · simp only [Vec.grow_len]
    rw [if_neg (by omega), Vec.grow]
    split
    · rfl
    · simp only []
      split
      · exact h3 i (by omega)
      · rfl
  · simp only []
    rw [if_neg (by omega)]
    exact h3 i (by omega)

theorem Vec.push_WF (v : Vec α) (x : α) (h : v.WF) : (v.push x).WF := by
  refine ⟨?_, ?_, ?_⟩
  · rw [Vec.push_len, Vec.push_cap]
    obtain ⟨h1, _, _⟩ := h
    split <;> rename_i hlc
    · split <;> omega
    · omega
  · intro i hi
    rw [Vec.push_len] at hi
    rcases Nat.lt_succ_iff_lt_or_eq.mp hi with hlt | heq
    · rw [Vec.push_buf_lt v x i hlt]
      exact h.2.1 i hlt
    · subst heq; rw [Vec.push_buf_at]; rfl
  · intro i hi
    rw [Vec.push_len] at hi
    exact Vec.push_buf_ge v x i h hi

theorem Vec.liveList_length (v : Vec α) : v.liveList.length = v.len := by
  simp [Vec.liveList]

theorem Vec.liveList_push (v : Vec α) (x : α) :
    (v.push x).liveList = v.liveList ++ [some x] := by
  rw [Vec.liveList, Vec.liveList, Vec.push_len, List.range_succ, List.map_append]
  congr 1
  · exact List.map_congr_left fun i hi =>
      Vec.push_buf_lt v x i (List.mem_range.mp hi)
  · simp [Vec.push_buf_at]

theorem Vec.pop_empty (v : Vec α) (h : v.len = 0) : v.pop = (none, v) := by
  rw [Vec.pop, if_pos h]

theorem Vec.pop_len (v : Vec α) : (v.pop).2.len = v.len - 1 := by
  rw [Vec.pop]; split <;> simp_all

theorem Vec.pop_cap (v : Vec α) : (v.pop).2.cap = v.cap := by
  rw [Vec.pop]; split <;> rfl

theorem Vec.pop_fst (v : Vec α) (h : v.len ≠ 0) : (v.pop).1 = v.buf (v.len - 1) := by
  rw [Vec.pop, if_neg h]

theorem Vec.pop_buf_lt (v : Vec α) (i : Nat) (h : i < v.len - 1) :
    (v.pop).2.buf i = v.buf i := by
  rw [Vec.pop]; split
  · rfl
  · simp only []
    rw [if_neg (by omega)]

theorem Vec.pop_buf_ge (v : Vec α) (i : Nat) (h : v.WF) (hi : v.len - 1 ≤ i) :
    (v.pop).2.buf i = none := by
  by_cases hz : v.len = 0
  · rw [Vec.pop_empty v hz]
    exact h.2.2 i (by omega)
  · rw [Vec.pop, if_neg hz]
    show (if i = v.len - 1 then none else v.buf i) = none
    by_cases he : i = v.len - 1
    · rw [if_pos he]
    · rw [if_neg he]
      exact h.2.2 i (by omega)

theorem Vec.pop_WF (v : Vec α) (h : v.WF) : (v.pop).2.WF := by
  refine ⟨?_, ?_, ?_⟩
  · rw [Vec.pop_len, Vec.pop_cap]
    exact le_trans (Nat.sub_le _ _) h.1
  · intro i hi
    rw [Vec.pop_len] at hi
    rw [Vec.pop_buf_lt v i hi]
    exact h.2.1 i (by omega)
  · intro i hi
    rw [Vec.pop_len] at hi
    exact Vec.pop_buf_ge v i h hi

theorem Vec.liveList_pop (v : Vec α) :
    (v.pop).2.liveList = (List.range (v.len - 1)).map v.buf := by
  by_cases hz : v.len = 0
  · rw [Vec.pop_empty v hz, Vec.liveList, hz]
  · rw [Vec.liveList, Vec.pop_len]
    exact List.map_congr_left fun i hi =>
      Vec.pop_buf_lt v i (List.mem_range.mp hi)

/-! ### The pop loop of `Drop for Vec` and repeated popping -/

theorem Vec.popN_succ (n : Nat) (v : Vec α) :
    v.popN (n + 1) = ((v.pop).1 :: ((v.pop).2.popN n).1, ((v.pop).2.popN n).2) := rfl

theorem Vec.popN_add (m n : Nat) (v : Vec α) :
    v.popN (m + n) =
      ((v.popN m).1 ++ ((v.popN m).2.popN n).1, ((v.popN m).2.popN n).2) := by
  induction m generalizing v with
  | zero => simp [Vec.popN]
  | succ m ih =>
    have hmn : m + 1 + n = (m + n) + 1 := by omega
    rw [hmn, Vec.popN_succ, Vec.popN_succ, ih (v.pop).2]
    simp

theorem Vec.pushAll_cons (v : Vec α) (x : α) (xs : List α) :
    v.pushAll (x :: xs) = (v.push x).pushAll xs := rfl

theorem Vec.pushAll_len (v : Vec α) (xs : List α) :
    (v.pushAll xs).len = v.len + xs.length := by
  induction xs generalizing v with
  | nil => rfl
  | cons x xs ih =>
    rw [Vec.pushAll_cons, ih, Vec.push_len, List.length_cons]
    omega

theorem Vec.popN_pushAll (xs : List α) (v : Vec α) (h : v.WF) :
    ((v.pushAll xs).popN xs.length).1 = (xs.map some).reverse ∧
    ((v.pushAll xs).popN xs.length).2.liveList = v.liveList ∧
    ((v.pushAll xs).popN xs.length).2.len = v.len ∧
    ((v.pushAll xs).popN xs.length).2.WF := by
  induction xs generalizing v with
  | nil => exact ⟨rfl, rfl, rfl, h⟩
  | cons x xs ih =>
    rw [Vec.pushAll_cons]
    have hlen : (x :: xs).length = xs.length + 1 := rfl
    rw [hlen, Vec.popN_add xs.length 1]
    obtain ⟨ih1, ih2, ih3, ih4⟩ := ih (v.push x) (Vec.push_WF v x h)
    set w := (((v.push x).pushAll xs).popN xs.length).2 with hw
    have hwlive : w.liveList = v.liveList ++ [some x] := by
      rw [ih2]; exact Vec.liveList_push v x
    have hwlen : w.len = v.len + 1 := by rw [ih3, Vec.push_len]
    have hwnz : w.len ≠ 0 := by omega
    have hbuf : w.buf v.len = some x := by
      have hL : w.liveList.get? v.len = some (w.buf v.len) := by
        rw [Vec.liveList, hwlen, List.get?_map,
          List.get?_range (Nat.lt_succ_self v.len)]
        rfl
      have hR : (v.liveList ++ [some x]).get? v.len = some (some x) := by
        conv_lhs => rw [show v.len = v.liveList.length from (Vec.liveList_length v).symm]
        exact List.get?_concat_length _ _
      rw [hwlive, hR] at hL
      exact (Option.some.inj hL).symm
    have hsplit : (List.range v.len).map w.buf = v.liveList := by
      have : w.liveList = (List.range v.len).map w.buf ++ [w.buf v.len] := by
        rw [Vec.liveList, hwlen, List.range_succ, List.map_append, List.map_singleton]
      rw [this, hbuf] at hwlive
      refine (List.append_inj hwlive ?_).1
      rw [List.length_map, List.length_range, Vec.liveList_length]
    refine ⟨?_, ?_, ?_, ?_⟩
    · rw [ih1, Vec.popN_succ]
      simp only [Vec.popN]
      rw [Vec.pop_fst w hwnz, hwlen]
      simp only [Nat.add_sub_cancel]
      rw [hbuf, List.map_cons, List.reverse_cons]
    · rw [Vec.popN_succ]
      simp only [Vec.popN]
      rw [Vec.liveList_pop, hwlen]
      simpa using hsplit
    · rw [Vec.popN_succ]
      simp only [Vec.popN]
      rw [Vec.pop_len, hwlen]
      omega
    · rw [Vec.popN_succ]
      simp only [Vec.popN]
      exact Vec.pop_WF w ih4

theorem Vec.dropLoopFuel_spec (n : Nat) (v : Vec α) (h : v.WF) (hn : n = v.len) :
    Vec.dropLoopFuel n v = v.liveList.reverse := by
  induction n generalizing v with
  | zero =>
    simp [Vec.dropLoopFuel, Vec.liveList, ← hn]
  | succ n ih =>
    show (if v.len = 0 then [] else (v.pop).1 :: Vec.dropLoopFuel n (v.pop).2) = _
    rw [if_neg (by omega)]
    rw [ih (v.pop).2 (Vec.pop_WF v h) (by rw [Vec.pop_len]; omega)]
    rw [Vec.liveList_pop, Vec.pop_fst v (by omega)]
    have hn' : v.len - 1 = n := by omega
    rw [hn']
    have hsp : v.liveList = (List.range n).map v.buf ++ [v.buf n] := by
      rw [Vec.liveList, ← hn, List.range_succ, List.map_append, List.map_singleton]
    rw [hsp]
    simp

/-! ### Capacity evolution -/

/-- The reachable states of the capacity counter along a pure `push`
history: either nothing was ever allocated, or the capacity is the
smallest element of the doubling chain `1, 2, 4, ...` that is at least
`len`. -/
def Vec.CapInv (v : Vec α) : Prop :=
  (v.len = 0 ∧ v.cap = 0) ∨
  (1 ≤ v.len ∧ ∃ k, v.cap = 2 ^ k ∧ v.len ≤ v.cap ∧ v.cap < 2 * v.len)

theorem Vec.capInv_new : (Vec.new : Vec α).CapInv :=
  Or.inl ⟨rfl, rfl⟩

theorem Vec.capInv_push (v : Vec α) (x : α) (h : v.CapInv) : (v.push x).CapInv := by
  rcases h with ⟨h0, hc0⟩ | ⟨h1, k, hk, hle, hlt⟩
  · right
    refine ⟨by rw [Vec.push_len]; omega, 0, ?_, ?_, ?_⟩
    · rw [Vec.push_cap, h0, hc0]; simp
    · rw [Vec.push_len, Vec.push_cap, h0, hc0]; simp
    · rw [Vec.push_len, Vec.push_cap, h0, hc0]; simp
  · right
    refine ⟨by rw [Vec.push_len]; omega, ?_⟩
    rw [Vec.push_len, Vec.push_cap]
    by_cases he : v.len = v.cap
    · rw [if_pos he, if_neg (by omega)]
      exact ⟨k + 1, by rw [hk, Nat.pow_succ]; ring, by omega, by omega⟩
    · rw [if_neg he]
      exact ⟨k, hk, by omega, by omega⟩

theorem Vec.capInv_pushAll (v : Vec α) (xs : List α) (h : v.CapInv) :
    (v.pushAll xs).CapInv := by
  induction xs generalizing v with
  | nil => exact h
  | cons x xs ih => exact ih (v.push x) (Vec.capInv_push v x h)

/-- Minimality of the doubling chain: a power of two below twice a bound
is at most every power of two at least the bound. -/
theorem Vec.pow_two_minimal (k j n : Nat) (h1 : 2 ^ k < 2 * n) (h2 : n ≤ 2 ^ j) :
    2 ^ k ≤ 2 ^ j := by
  rcases le_or_lt k j with hkj | hjk
  · exact Nat.pow_le_pow_right (by omega) hkj
  · have : 2 ^ (j + 1) ≤ 2 ^ k := Nat.pow_le_pow_right (by omega) (by omega)
    rw [Nat.pow_succ] at this
    omega

theorem Vec.insertRes_cap_ge (v : Vec α) (i : Nat) (x : α) :
    v.cap ≤ (v.insertRes i x).cap := by
  rw [Vec.insertRes, Vec.insert]
  split
  · show v.cap ≤ (if v.cap = v.len then v.grow else v).cap
    split
    · exact Vec.cap_le_grow_cap v
    · exact Nat.le_refl _
  · exact Nat.le_refl _

theorem Vec.remove_ok_cap (v : Vec α) (i : Nat) (val : α) (w : Vec α)
    (h : v.remove i = RemoveResult.ok val w) : w.cap = v.cap := by
  rw [Vec.remove] at h
  split at h
  · split at h
    · simp at h
    · split at h
      · simp at h
      · dsimp only at h
        split at h
        · simp at h
        · injection h with h1 h2
          rw [← h2]
  · simp at h

theorem Op.apply_cap_ge (op : Op α) (v : Vec α) : v.cap ≤ (op.apply v).cap := by
  cases op with
  | push x => exact Vec.cap_le_push_cap v x
  | pop => rw [Op.apply, Vec.pop_cap]
  | insert i x => exact Vec.insertRes_cap_ge v i x
  | remove i =>
    rw [Op.apply]
    rcases hr : v.remove i with _ | _ | ⟨val, w⟩
    · exact Nat.le_refl _
    · exact Nat.le_refl _
    · rw [Vec.remove_ok_cap v i val w hr]

theorem Op.applyAll_cap_ge (ops : List (Op α)) (v : Vec α) :
    v.cap ≤ (Op.applyAll ops v).cap := by
  induction ops generalizing v with
  | nil => exact Nat.le_refl _
  | cons op ops ih =>
    exact Nat.le_trans (Op.apply_cap_ge op v) (ih (op.apply v))

/-! ### Facts about the consuming iterator -/

theorem VecIntoIter.next_fst (it : VecIntoIter α) (h : it.start ≠ it.stop) :
    (it.next).1 = it.buf it.start := by
  rw [VecIntoIter.next, if_neg h]

theorem VecIntoIter.next_snd_start (it : VecIntoIter α) (h : it.start ≠ it.stop) :
    (it.next).2.start = it.start + 1 := by
  rw [VecIntoIter.next, if_neg h]

theorem VecIntoIter.next_snd_stop (it : VecIntoIter α) (h : it.start ≠ it.stop) :
    (it.next).2.stop = it.stop := by
  rw [VecIntoIter.next, if_neg h]

theorem VecIntoIter.next_snd_cap (it : VecIntoIter α) (h : it.start ≠ it.stop) :
    (it.next).2.cap = it.cap := by
  rw [VecIntoIter.next, if_neg h]

theorem VecIntoIter.next_snd_buf (it : VecIntoIter α) (h : it.start ≠ it.stop)
    (j : Nat) (hj : j ≠ it.start) : (it.next).2.buf j = it.buf j := by
  rw [VecIntoIter.next, if_neg h]
  show (if j = it.start then none else it.buf j) = it.buf j
  rw [if_neg hj]

theorem VecIntoIter.nextBack_fst (it : VecIntoIter α) (h : it.start ≠ it.stop) :
    (it.nextBack).1 = it.buf (it.stop - 1) := by
  rw [VecIntoIter.nextBack, if_neg h]

theorem VecIntoIter.nextBack_snd_start (it : VecIntoIter α) (h : it.start ≠ it.stop) :
    (it.nextBack).2.start = it.start := by
  rw [VecIntoIter.nextBack, if_neg h]

theorem VecIntoIter.nextBack_snd_stop (it : VecIntoIter α) (h : it.start ≠ it.stop) :
    (it.nextBack).2.stop = it.stop - 1 := by
  rw [VecIntoIter.nextBack, if_neg h]

theorem VecIntoIter.nextBack_snd_buf (it : VecIntoIter α) (h : it.start ≠ it.stop)
    (j : Nat) (hj : j ≠ it.stop - 1) : (it.nextBack).2.buf j = it.buf j := by
  rw [VecIntoIter.nextBack, if_neg h]
  show (if j = it.stop - 1 then none else it.buf j) = it.buf j
  rw [if_neg hj]

theorem VecIntoIter.remainingList_length (it : VecIntoIter α) :
    it.remainingList.length = it.stop - it.start := by
  simp [VecIntoIter.remainingList]

theorem VecIntoIter.remainingList_next_snd (it : VecIntoIter α) (h : it.start ≠ it.stop) :
    ((it.next).2).remainingList =
      (List.range (it.stop - (it.start + 1))).map (fun k => it.buf (it.start + 1 + k)) := by
  rw [VecIntoIter.remainingList, VecIntoIter.next_snd_start it h,
    VecIntoIter.next_snd_stop it h]
  exact List.map_congr_left fun k _ =>
    VecIntoIter.next_snd_buf it h (it.start + 1 + k) (by omega)

theorem VecIntoIter.remainingList_cons (it : VecIntoIter α) (h : it.start < it.stop) :
    it.remainingList =
      it.buf it.start ::
        (List.range (it.stop - (it.start + 1))).map (fun k => it.buf (it.start + 1 + k)) := by
  rw [VecIntoIter.remainingList]
  have hm : it.stop - it.start = (it.stop - (it.start + 1)) + 1 := by omega
  rw [hm, List.range_succ_eq_map, List.map_cons, List.map_map]
  congr 1
  refine List.map_congr_left fun k _ => ?_
  show it.buf (it.start + Nat.succ k) = it.buf (it.start + 1 + k)
  congr 1
  omega

theorem VecIntoIter.remainingList_nextBack_snd (it : VecIntoIter α) (h : it.start < it.stop) :
    ((it.nextBack).2).remainingList =
      (List.range ((it.stop - 1) - it.start)).map (fun k => it.buf (it.start + k)) := by
  rw [VecIntoIter.remainingList, VecIntoIter.nextBack_snd_start it (by omega),
    VecIntoIter.nextBack_snd_stop it (by omega)]
  exact List.map_congr_left fun k hk =>
    VecIntoIter.nextBack_snd_buf it (by omega) (it.start + k)
      (by have := List.mem_range.mp hk; omega)

theorem VecIntoIter.remainingList_concat (it : VecIntoIter α) (h : it.start < it.stop) :
    it.remainingList = ((it.nextBack).2).remainingList ++ [it.buf (it.stop - 1)] := by
  rw [VecIntoIter.remainingList, VecIntoIter.remainingList_nextBack_snd it h]
  have hm : it.stop - it.start = ((it.stop - 1) - it.start) + 1 := by omega
  rw [hm, List.range_succ, List.map_append, List.map_singleton]
  have hx : it.start + ((it.stop - 1) - it.start) = it.stop - 1 := by omega
  show _ ++ [it.buf (it.start + ((it.stop - 1) - it.start))] =
    _ ++ [it.buf (it.stop - 1)]
  rw [hx]

theorem VecIntoIter.drainFuel_succ (n : Nat) (it : VecIntoIter α) :
    VecIntoIter.drainFuel (n + 1) it =
      if it.start = it.stop then ([], it)
      else ((it.next).1 :: (VecIntoIter.drainFuel n (it.next).2).1,
            (VecIntoIter.drainFuel n (it.next).2).2) := by
  show (if it.start = it.stop then ([], it) else _) = _
  split <;> rfl

theorem VecIntoIter.drainFuel_spec (n : Nat) (it : VecIntoIter α)
    (h : it.start ≤ it.stop) (hn : n = it.stop - it.start) :
    (VecIntoIter.drainFuel n it).1 = it.remainingList ∧
    (VecIntoIter.drainFuel n it).2.start = (VecIntoIter.drainFuel n it).2.stop := by
  induction n generalizing it with
  | zero =>
    refine ⟨?_, ?_⟩
    · show ([] : List (Option α)) = it.remainingList
      rw [VecIntoIter.remainingList, ← hn]
      rfl
    · show it.start = it.stop
      omega
  | succ n ih =>
    have hne : it.start ≠ it.stop := by omega
    rw [VecIntoIter.drainFuel_succ, if_neg hne]
    obtain ⟨ih1, ih2⟩ := ih (it.next).2
      (by rw [VecIntoIter.next_snd_start it hne, VecIntoIter.next_snd_stop it hne]; omega)
      (by rw [VecIntoIter.next_snd_start it hne, VecIntoIter.next_snd_stop it hne]; omega)
    refine ⟨?_, ih2⟩
    rw [ih1, VecIntoIter.next_fst it hne, VecIntoIter.remainingList_next_snd it hne,
      VecIntoIter.remainingList_cons it (by omega)]

theorem VecIntoIter.drain_spec (it : VecIntoIter α) (h : it.start ≤ it.stop) :
    (it.drain).1 = it.remainingList ∧ (it.drain).2.start = (it.drain).2.stop :=
  VecIntoIter.drainFuel_spec (it.stop - it.start) it h rfl

theorem VecIntoIter.drainWith_cons (c : Bool) (cs : List Bool) (it : VecIntoIter α) :
    VecIntoIter.drainWith (c :: cs) it =
      if it.start = it.stop then VecIntoIter.drainWith cs it
      else
        ((if c then it.next else it.nextBack).1 ::
            (VecIntoIter.drainWith cs (if c then it.next else it.nextBack).2).1,
          (VecIntoIter.drainWith cs (if c then it.next else it.nextBack).2).2) := by
  show (if it.start = it.stop then VecIntoIter.drainWith cs it else _) = _
  split <;> rfl

theorem VecIntoIter.drainWith_spec (cs : List Bool) (it : VecIntoIter α)
    (h : it.start ≤ it.stop) (hcs : it.stop - it.start ≤ cs.length) :
    ((VecIntoIter.drainWith cs it).1).Perm it.remainingList ∧
    (VecIntoIter.drainWith cs it).2.start = (VecIntoIter.drainWith cs it).2.stop := by
  induction cs generalizing it with
  | nil =>
    have h0 : it.stop - it.start = 0 := by
      simp only [List.length_nil] at hcs
      omega
    refine ⟨?_, ?_⟩
    · show List.Perm [] it.remainingList
      rw [VecIntoIter.remainingList, h0]
      simp
    · show it.start = it.stop
      omega
  | cons c cs ih =>
    rw [VecIntoIter.drainWith_cons]
    by_cases he : it.start = it.stop
    · rw [if_pos he]
      exact ih it h (by omega)
    · rw [if_neg he]
      have hlt : it.start < it.stop := by omega
      cases c with
      | true =>
        have hp : (if true then it.next else it.nextBack) = it.next := rfl
        rw [hp]
        obtain ⟨ih1, ih2⟩ := ih (it.next).2
          (by rw [VecIntoIter.next_snd_start it he, VecIntoIter.next_snd_stop it he]; omega)
          (by rw [VecIntoIter.next_snd_start it he, VecIntoIter.next_snd_stop it he]
              simp only [List.length_cons] at hcs; omega)
        refine ⟨?_, ih2⟩
        rw [VecIntoIter.next_fst it he, VecIntoIter.remainingList_cons it hlt,
          ← VecIntoIter.remainingList_next_snd it he]
        exact List.Perm.cons _ ih1
      | false =>
        have hp : (if false then it.next else it.nextBack) = it.nextBack := rfl
        rw [hp]
        obtain ⟨ih1, ih2⟩ := ih (it.nextBack).2
          (by rw [VecIntoIter.nextBack_snd_start it he, VecIntoIter.nextBack_snd_stop it he]
              omega)
          (by rw [VecIntoIter.nextBack_snd_start it he, VecIntoIter.nextBack_snd_stop it he]
              simp only [List.length_cons] at hcs; omega)
        refine ⟨?_, ih2⟩
        rw [VecIntoIter.nextBack_fst it he, VecIntoIter.remainingList_concat it hlt]
        exact (List.Perm.cons _ ih1).trans
          (List.perm_append_singleton _ _).symm

/-! ### Teardown sequences -/

theorem Vec.dropElems_eq_reverse (v : Vec α) (h : v.WF) :
    v.dropElems = v.liveList.reverse := by
  rw [Vec.dropElems]
  split
  · rename_i hc
    have hlen : v.len = 0 := by have := h.1; omega
    rw [Vec.liveList, hlen]
    rfl
  · exact Vec.dropLoopFuel_spec v.len v h rfl

theorem VecIntoIter.dropElems_eq_remaining (it : VecIntoIter α) (h : it.WF) :
    it.dropElems = it.remainingList := by
  rw [VecIntoIter.dropElems]
  split
  · rename_i hc
    rw [VecIntoIter.remainingList, h.2 hc]
    simp
  · exact (VecIntoIter.drain_spec it h.1).1

/-! ### Concrete states used as witnesses -/

/-- A well-formed vector of length 1 and capacity 1 holding `[10]`. -/
def tv1 : Vec Nat :=
  { buf := fun i => if i = 0 then some 10 else none, cap := 1, len := 1 }

/-- A well-formed vector of length 2 and capacity 2 holding `[10, 20]`. -/
def tv2 : Vec Nat :=
  { buf := fun i => if i = 0 then some 10 else if i = 1 then some 20 else none,
    cap := 2, len := 2 }

/-- A partially drained iterator over a 2-element buffer: the front
element was already yielded, slot 1 is still pending. -/
def it2 : VecIntoIter Nat :=
  { buf := fun i => if i = 1 then some 20 else none, cap := 2, start := 1, stop := 2 }

/-- A fresh iterator over `[1, 2, 3, 4]`. -/
def it4 : VecIntoIter Nat :=
  { buf := fun i => if i < 4 then some (i + 1) else none, cap := 4, start := 0, stop := 4 }

theorem tv1_WF : tv1.WF := by
  refine ⟨by decide, ?_, ?_⟩
  · intro i hi
    have h1 : i < 1 := hi
    have h0 : i = 0 := by omega
    subst h0
    rfl
  · intro i hi
    have h1 : 1 ≤ i := hi
    show (if i = 0 then some 10 else none) = none
    rw [if_neg (by omega)]

theorem tv2_WF : tv2.WF := by
  refine ⟨by decide, ?_, ?_⟩
  · intro i hi
    have h2 : i < 2 := hi
    show ((if i = 0 then some 10 else if i = 1 then some 20 else none)).isSome = true
    rcases i with _ | i
    · rfl
    · rcases i with _ | i
      · rfl
      · omega
  · intro i hi
    have h2 : 2 ≤ i := hi
    show (if i = 0 then some 10 else if i = 1 then some 20 else none) = none
    rw [if_neg (by omega), if_neg (by omega)]

theorem it2_WF : it2.WF :=
  ⟨by decide, fun hc => absurd hc (by decide)⟩

theorem it4_WF : it4.WF :=
  ⟨by decide, fun hc => absurd hc (by decide)⟩

/-! ### Claims -/

/-- C1: the claim asserts that every index accepted by `remove`'s bounds
check (`index <= length`) reads only initialized slots and never
underflows the shift count.  The code refutes it: the check accepts
`index == length`, after which `remove` on `[10]` at index 1 reads the
uninitialized slot 1, and `remove` on the empty vector at index 0
underflows `len` — both reported as `RemoveResult.undefined` by the
embedding. -/
theorem remove_bounds_check_admits_undefined :
    (1 ≤ tv1.len ∧ tv1.remove 1 = RemoveResult.undefined) ∧
    (0 ≤ (Vec.new : Vec Nat).len ∧
      (Vec.new : Vec Nat).remove 0 = RemoveResult.undefined) :=
  ⟨⟨by decide, rfl⟩, ⟨by decide, rfl⟩⟩

/-- C2 (counterexample): the claim says teardown drops live elements in
forward order (index 0 first).  On the two-element vector `[10, 20]` the
pop loop of `Drop for Vec` tears down `20` first, so the teardown
sequence differs from the forward indexing sequence. -/
theorem teardown_forward_order_counterexample :
    tv2.dropElems = [some 20, some 10] ∧
    tv2.liveList = [some 10, some 20] ∧
    tv2.dropElems ≠ tv2.liveList :=
  ⟨rfl, rfl, by decide⟩

/-- C2 (amended): container teardown drops every live element in reverse
order (the element at index `length - 1` first, the element at index 0
last), and releases the buffer if and only if `capacity != 0`. -/
theorem teardown_reverse_order (v : Vec α) (h : v.WF) :
    v.dropElems = v.liveList.reverse ∧ (v.dropFreesBuffer = true ↔ v.cap ≠ 0) := by
  refine ⟨Vec.dropElems_eq_reverse v h, ?_⟩
  rw [Vec.dropFreesBuffer]
  exact bne_iff_ne

theorem teardown_reverse_order_witness :
    tv2.WF ∧
    (tv2.dropElems = tv2.liveList.reverse ∧ (tv2.dropFreesBuffer = true ↔ tv2.cap ≠ 0)) :=
  ⟨tv2_WF, teardown_reverse_order tv2 tv2_WF⟩

/-- C3: `n` pushes on a fresh container followed by `n` pops return
exactly the pushed values in reverse order of insertion, and leave the
container with length 0. -/
theorem append_pop_lifo (xs : List α) :
    ((Vec.new.pushAll xs).popN xs.length).1 = (xs.reverse).map some ∧
    ((Vec.new.pushAll xs).popN xs.length).2.len = 0 := by
  have hWF : (Vec.new : Vec α).WF :=
    ⟨Nat.le_refl 0, fun i hi => absurd (show i < 0 from hi) (by omega), fun i _ => rfl⟩
  obtain ⟨h1, _, h3, _⟩ := Vec.popN_pushAll xs Vec.new hWF
  refine ⟨?_, h3⟩
  rw [h1]
  exact (List.map_reverse some xs).symm

/-- C6: starting from a fresh container, after pushing a nonempty list
the capacity is a power of two, at least the number of pushes, and
minimal among the powers of two with that property; the first allocation
has capacity 1 and every later growth exactly doubles; and no operation
sequence ever decreases the capacity. -/
theorem capacity_doubling_and_monotone (xs : List α) (ops : List (Op α)) (v w : Vec α)
    (hxs : xs ≠ []) :
    (xs.length ≤ (Vec.new.pushAll xs).cap ∧
      (∃ k, (Vec.new.pushAll xs).cap = 2 ^ k) ∧
      ∀ j, xs.length ≤ 2 ^ j → (Vec.new.pushAll xs).cap ≤ 2 ^ j) ∧
    v.cap ≤ (Op.applyAll ops v).cap ∧
    (w.cap = 0 → (w.grow).cap = 1) ∧
    (w.cap ≠ 0 → (w.grow).cap = 2 * w.cap) := by
  refine ⟨?_, Op.applyAll_cap_ge ops v, ?_, ?_⟩
  · have hinv := Vec.capInv_pushAll Vec.new xs Vec.capInv_new
    have hlen : (Vec.new.pushAll xs).len = xs.length := by
      rw [Vec.pushAll_len]
      show 0 + xs.length = xs.length
      omega
    rcases hinv with ⟨h0, _⟩ | ⟨h1, k, hk, hle, hlt⟩
    · exact absurd (List.eq_nil_of_length_eq_zero (by omega)) hxs
    · refine ⟨by omega, ⟨k, hk⟩, ?_⟩
      intro j hj
      rw [hk]
      exact Vec.pow_two_minimal k j xs.length (by omega) hj
  · intro hc
    rw [Vec.grow_cap, if_pos hc]
  · intro hc
    rw [Vec.grow_cap, if_neg hc]

theorem capacity_doubling_and_monotone_witness :
    ([1, 2, 3, 4, 5] : List Nat) ≠ [] ∧
    ((([1, 2, 3, 4, 5] : List Nat).length ≤ ((Vec.new : Vec Nat).pushAll [1, 2, 3, 4, 5]).cap ∧
        (∃ k, ((Vec.new : Vec Nat).pushAll [1, 2, 3, 4, 5]).cap = 2 ^ k) ∧
        ∀ j, ([1, 2, 3, 4, 5] : List Nat).length ≤ 2 ^ j →
          ((Vec.new : Vec Nat).pushAll [1, 2, 3, 4, 5]).cap ≤ 2 ^ j) ∧
      tv2.cap ≤ (Op.applyAll [Op.push 7, Op.pop] tv2).cap ∧
      (tv2.cap = 0 → (tv2.grow).cap = 1) ∧
      (tv2.cap ≠ 0 → (tv2.grow).cap = 2 * tv2.cap)) :=
  ⟨by decide,
   capacity_doubling_and_monotone [1, 2, 3, 4, 5] [Op.push 7, Op.pop] tv2 tv2 (by decide)⟩

/-- C7: tearing down a container, or a (possibly partially drained)
consuming iterator, hands each element that is still live at drop time to
the element destructor exactly once — the teardown sequence is a
permutation of the live region (for the iterator it is exactly the
remaining region, in order), so nothing is dropped twice and nothing is
leaked. -/
theorem teardown_once_per_live_element (v : Vec α) (it : VecIntoIter α)
    (hv : v.WF) (hit : it.WF) :
    (v.dropElems).Perm v.liveList ∧
    it.dropElems = it.remainingList := by
  refine ⟨?_, VecIntoIter.dropElems_eq_remaining it hit⟩
  rw [Vec.dropElems_eq_reverse v hv]
  exact List.reverse_perm _

theorem teardown_once_per_live_element_witness :
    tv2.WF ∧ it2.WF ∧
    ((tv2.dropElems).Perm tv2.liveList ∧ it2.dropElems = it2.remainingList) :=
  ⟨tv2_WF, it2_WF, teardown_once_per_live_element tv2 it2 tv2_WF it2_WF⟩

/-- C8: `next` and `next_back` both preserve `start <= end`, and any
interleaving of front and back calls long enough to exhaust the iterator
yields every pending element exactly once (a permutation of the region
`[start, end)`), yields exactly `end - start` elements in total, and ends
with `start = end`, after which both calls return `none`. -/
theorem double_ended_interleave_exactly_once (it : VecIntoIter α) (cs : List Bool)
    (h : it.start ≤ it.stop) (hcs : it.stop - it.start ≤ cs.length) :
    ((it.next).2.start ≤ (it.next).2.stop ∧
      (it.nextBack).2.start ≤ (it.nextBack).2.stop) ∧
    ((VecIntoIter.drainWith cs it).1).Perm it.remainingList ∧
    ((VecIntoIter.drainWith cs it).1).length = it.stop - it.start ∧
    (VecIntoIter.drainWith cs it).2.start = (VecIntoIter.drainWith cs it).2.stop ∧
    ((VecIntoIter.drainWith cs it).2.next).1 = none ∧
    ((VecIntoIter.drainWith cs it).2.nextBack).1 = none := by
  obtain ⟨hperm, hfin⟩ := VecIntoIter.drainWith_spec cs it h hcs
  refine ⟨⟨?_, ?_⟩, hperm, ?_, hfin, ?_, ?_⟩
  · by_cases he : it.start = it.stop
    · rw [VecIntoIter.next, if_pos he]
      exact h
    · rw [VecIntoIter.next_snd_start it he, VecIntoIter.next_snd_stop it he]
      omega
  · by_cases he : it.start = it.stop
    · rw [VecIntoIter.nextBack, if_pos he]
      exact h
    · rw [VecIntoIter.nextBack_snd_start it he, VecIntoIter.nextBack_snd_stop it he]
      omega
  · rw [hperm.length_eq, VecIntoIter.remainingList_length]
  · rw [VecIntoIter.next, if_pos hfin]
  · rw [VecIntoIter.nextBack, if_pos hfin]

theorem double_ended_interleave_exactly_once_witness :
    it4.start ≤ it4.stop ∧
    it4.stop - it4.start ≤ ([true, false, true, false, true] : List Bool).length ∧
    (((it4.next).2.start ≤ (it4.next).2.stop ∧
        (it4.nextBack).2.start ≤ (it4.nextBack).2.stop) ∧
      ((VecIntoIter.drainWith [true, false, true, false, true] it4).1).Perm it4.remainingList ∧
      ((VecIntoIter.drainWith [true, false, true, false, true] it4).1).length =
        it4.stop - it4.start ∧
      (VecIntoIter.drainWith [true, false, true, false, true] it4).2.start =
        (VecIntoIter.drainWith [true, false, true, false, true] it4).2.stop ∧
      ((VecIntoIter.drainWith [true, false, true, false, true] it4).2.next).1 = none ∧
      ((VecIntoIter.drainWith [true, false, true, false, true] it4).2.nextBack).1 = none) :=
  ⟨by decide, by decide,
   double_ended_interleave_exactly_once it4 [true, false, true, false, true]
     (by decide) (by decide)⟩

/-- C9: converting a container into the consuming iterator and fully
draining it from the front yields exactly the live region in forward
(insertion) order, and the size hint is the exact element distance
`end - start`, which equals the number of elements a full drain still
yields. -/
theorem intoIter_drain_matches_indexing (v : Vec α) (it : VecIntoIter α)
    (hv : v.WF) (hit : it.start ≤ it.stop) :
    ((v.intoIter).drain).1 = v.liveList ∧
    it.sizeHint = (it.stop - it.start, some (it.stop - it.start)) ∧
    ((it.drain).1).length = (it.sizeHint).1 := by
  refine ⟨?_, rfl, ?_⟩
  · have hstart : (v.intoIter).start = 0 := rfl
    have hbuf : (v.intoIter).buf = v.buf := rfl
    have hstop : (v.intoIter).stop = v.len := by
      show (if v.cap = 0 then 0 else v.len) = v.len
      split
      · rename_i hc
        have := hv.1
        omega
      · rfl
    have hwf : (v.intoIter).start ≤ (v.intoIter).stop := by
      rw [hstart]
      exact Nat.zero_le _
    rw [(VecIntoIter.drain_spec (v.intoIter) hwf).1, VecIntoIter.remainingList,
      hstop, hstart, hbuf, Nat.sub_zero, Vec.liveList]
    exact List.map_congr_left fun k _ => by rw [Nat.zero_add]
  · rw [(VecIntoIter.drain_spec it hit).1, VecIntoIter.remainingList_length]
    rfl

theorem intoIter_drain_matches_indexing_witness :
    tv2.WF ∧ it2.start ≤ it2.stop ∧
    (((tv2.intoIter).drain).1 = tv2.liveList ∧
      it2.sizeHint = (it2.stop - it2.start, some (it2.stop - it2.start)) ∧
      ((it2.drain).1).length = (it2.sizeHint).1) :=
  ⟨tv2_WF, by decide, intoIter_drain_matches_indexing tv2 it2 tv2_WF (by decide)⟩

/-- C10: operations that signal failure or emptiness mutate nothing:
`pop` on an empty container returns `none` with the container (length,
capacity and buffer) unchanged, and `insert` with `index > length` fails
its bounds assert before growing or mutating anything, leaving the
container as it was. -/
theorem failed_ops_leave_state_unchanged (v : Vec α) (i : Nat) (x : α) :
    (v.len = 0 → v.pop = (none, v)) ∧
    (v.len < i → v.insert i x = none ∧ v.insertRes i x = v) := by
  refine ⟨Vec.pop_empty v, fun hi => ?_⟩
  have hins : v.insert i x = none := by
    rw [Vec.insert, if_neg (by omega)]
  exact ⟨hins, by rw [Vec.insertRes, hins]; rfl⟩

theorem failed_ops_leave_state_unchanged_witness :
    ((Vec.new : Vec Nat).len = 0 ∧ (Vec.new : Vec Nat).pop = (none, Vec.new)) ∧
    ((Vec.new : Vec Nat).len < 1 ∧ (Vec.new : Vec Nat).insert 1 5 = none ∧
      (Vec.new : Vec Nat).insertRes 1 5 = Vec.new) :=
  ⟨⟨rfl, (failed_ops_leave_state_unchanged Vec.new 1 5).1 rfl⟩,
   ⟨by decide, (failed_ops_leave_state_unchanged Vec.new 1 5).2 (by decide)⟩⟩

/-- C4: for every container and every `i <= length`, `insert(i, v)`
succeeds, stores `v` at index `i`, shifts every element previously at an
index `>= i` up by one, leaves indices `< i` unchanged, and increases the
length by exactly 1. -/
theorem insert_spec (v : Vec α) (i : Nat) (x : α) (h : i ≤ v.len) :
    ∃ w, v.insert i x = some w ∧
      w.len = v.len + 1 ∧
      w.buf i = some x ∧
      (∀ j, j < i → w.buf j = v.buf j) ∧
      (∀ j, i ≤ j → j < v.len → w.buf (j + 1) = v.buf j) := by
  rw [Vec.insert, if_pos h]
  dsimp only
  set u : Vec α := if v.cap = v.len then v.grow else v with hu
  have hulen : u.len = v.len := by
    rw [hu]
    split
    · exact Vec.grow_len v
    · rfl
  have hubuf : ∀ j, j < v.len → u.buf j = v.buf j := by
    intro j hj
    rw [hu]
    split
    · rename_i hcl
      exact Vec.grow_buf_lt v j (by omega)
    · rfl
  refine ⟨_, rfl, ?_, ?_, ?_, ?_⟩
  · show u.len + 1 = v.len + 1
    rw [hulen]
  · show (if i = i then some x
      else if i + 1 ≤ i ∧ i < i + 1 + (u.len - i) then u.buf (i - 1) else u.buf i) = some x
    rw [if_pos rfl]
  · intro j hj
    show (if j = i then some x
      else if i + 1 ≤ j ∧ j < i + 1 + (u.len - i) then u.buf (j - 1) else u.buf j) = v.buf j
    rw [if_neg (by omega), if_neg (by omega)]
    exact hubuf j (by omega)
  · intro j h1 h2
    show (if j + 1 = i then some x
      else if i + 1 ≤ j + 1 ∧ j + 1 < i + 1 + (u.len - i) then u.buf (j + 1 - 1)
      else u.buf (j + 1)) = v.buf j
    rw [if_neg (by omega), if_pos (⟨by omega, by rw [hulen]; omega⟩ :
      i + 1 ≤ j + 1 ∧ j + 1 < i + 1 + (u.len - i))]
    have hj1 : j + 1 - 1 = j := by omega
    rw [hj1]
    exact hubuf j h2

theorem insert_spec_witness :
    1 ≤ tv2.len ∧
    (∃ w, tv2.insert 1 99 = some w ∧
      w.len = tv2.len + 1 ∧
      w.buf 1 = some 99 ∧
      (∀ j, j < 1 → w.buf j = tv2.buf j) ∧
      (∀ j, 1 ≤ j → j < tv2.len → w.buf (j + 1) = tv2.buf j)) :=
  ⟨by decide, insert_spec tv2 1 99 (by decide)⟩

/-- C5: for every well-formed container and every `i < length`,
`remove(i)` returns the value previously stored at index `i`, shifts
every element previously at an index `> i` down by one, leaves indices
`< i` unchanged, and decreases the length by exactly 1. -/
theorem remove_spec (v : Vec α) (i : Nat) (h : v.WF) (hi : i < v.len) :
    ∃ val w, v.remove i = RemoveResult.ok val w ∧
      v.buf i = some val ∧
      w.len = v.len - 1 ∧
      (∀ j, j < i → w.buf j = v.buf j) ∧
      (∀ j, i < j → j < v.len → w.buf (j - 1) = v.buf j) := by
  obtain ⟨val, hval⟩ := Option.isSome_iff_exists.mp (h.2.1 i hi)
  rw [Vec.remove, if_pos (by omega : i ≤ v.len), if_neg (by omega : ¬ v.len = 0)]
  dsimp only
  rw [hval]
  dsimp only
  rw [if_neg (by omega : ¬ (v.len - 1 < i))]
  refine ⟨val, _, rfl, rfl, rfl, ?_, ?_⟩
  · intro j hj
    show (if j = v.len - 1 then none
      else if i ≤ j ∧ j < i + (v.len - 1 - i) then v.buf (j + 1) else v.buf j) = v.buf j
    rw [if_neg (by omega), if_neg (by omega)]
  · intro j h1 h2
    show (if j - 1 = v.len - 1 then none
      else if i ≤ j - 1 ∧ j - 1 < i + (v.len - 1 - i) then v.buf (j - 1 + 1)
      else v.buf (j - 1)) = v.buf j
    rw [if_neg (by omega), if_pos (⟨by omega, by omega⟩ :
      i ≤ j - 1 ∧ j - 1 < i + (v.len - 1 - i))]
    have hj1 : j - 1 + 1 = j := by omega
    rw [hj1]

theorem remove_spec_witness :
    tv2.WF ∧ 0 < tv2.len ∧
    (∃ val w, tv2.remove 0 = RemoveResult.ok val w ∧
      tv2.buf 0 = some val ∧
      w.len = tv2.len - 1 ∧
      (∀ j, j < 0 → w.buf j = tv2.buf j) ∧
      (∀ j, 0 < j → j < tv2.len → w.buf (j - 1) = tv2.buf j)) :=
  ⟨tv2_WF, by decide, remove_spec tv2 0 tv2_WF (by decide)⟩

end Rustonomicon
